import Mathlib

/-!
Verification of the `taskmanager-tools` paper intake and filing pipeline.

The Python sources are shallowly embedded over `Str := List Char`:

* `src/papers/research_paper_util.py` — `generate_formatted_filename`,
  `shorten_title_for_filename`, `analyze_paper_with_claude`;
* `src/papers/upload.py` — `handle_arxiv_paper`, `main` (embedded as `run`);
* `src/remarkable/rmapi.py` — `RMAPI.ensure_directory`, `RMAPI.upload_paper`.

External effects (the Claude oracle, the rmapi subprocess bridge, the local
filesystem) are modelled by a `World` record of their observable outcomes, and
each embedded operation returns its result together with the list of external
`Event`s it issued, in order.
-/

namespace TaskTools

/-- Strings are modelled as lists of characters. -/
abbrev Str := List Char

/-- Whitespace test used by Python `str.split()` / `str.strip()`. -/
def isWS (c : Char) : Bool := c.isWhitespace

/-- Fuel-indexed worker for `pyWords` (fuel keeps the recursion structural). -/
def pyWordsF : Nat → Str → List Str
  | 0, _ => []
  | _ + 1, [] => []
  | n + 1, c :: cs =>
    if isWS c then pyWordsF n cs
    else (c :: cs.takeWhile (fun d => !isWS d)) :: pyWordsF n (cs.dropWhile (fun d => !isWS d))

/-- Python `s.split()` (no separator): split on whitespace runs, drop empties. -/
def pyWords (l : Str) : List Str := pyWordsF l.length l

/-- Python `" ".join(ws)`: the words separated by single spaces. -/
def joinSpace : List Str → Str
  | [] => []
  | [w] => w
  | w :: rest => w ++ ' ' :: joinSpace rest

/-- Python `s.strip()`: remove leading and trailing whitespace. -/
def pyStrip (l : Str) : Str :=
  ((l.dropWhile isWS).reverse.dropWhile isWS).reverse

/-- Character class kept by `generate_formatted_filename`:
`c.isalnum() or c in (" ", "-", "_")`. -/
def allowedChar (c : Char) : Bool :=
  c.isAlphanum || c == ' ' || c == '-' || c == '_'

/-- The fixed document extension `".pdf"`. -/
def pdfExt : Str := ['.', 'p', 'd', 'f']

/-- Embedding of `generate_formatted_filename` (research_paper_util.py, lines 90-101):
keep alphanumerics, spaces, hyphens, underscores; strip; normalize whitespace
with `" ".join(s.split())`; append `".pdf"`. -/
def generate_formatted_filename (title : Str) : Str :=
  let safe := title.filter allowedChar
  let safe := pyStrip safe
  let safe := joinSpace (pyWords safe)
  safe ++ pdfExt

/-- Strip a final `".pdf"` from a name, if present (used to state the
idempotence property "after stripping the extension"). -/
def stripPdf (l : Str) : Str :=
  if pdfExt.isSuffixOf l then l.take (l.length - 4) else l

/-- The stop-word set of `shorten_title_for_filename`. -/
def stopWords : List Str :=
  ["a", "an", "the", "of", "for", "and", "or", "but", "in", "on", "at",
   "to", "from", "by", "with", "via", "using", "through"].map String.toList

/-- Python `re.sub(r"[^\w\s-]", "", word)`: keep word characters
(alphanumeric or underscore), whitespace and hyphens. -/
def cleanWord (w : Str) : Str :=
  w.filter (fun c => c.isAlphanum || c == '_' || c.isWhitespace || c == '-')

/-- Python `s.lower()` (character-wise). -/
def lowerStr (w : Str) : Str := w.map Char.toLower

/-- First word-collection loop of `shorten_title_for_filename`
(lines 135-141): keep non-stop-word, nonempty cleaned tokens, breaking as
soon as `max_words` are kept. -/
def phase1 : List Str → Nat → List Str → List Str
  | [], _, acc => acc
  | w :: ws, maxW, acc =>
    if lowerStr (cleanWord w) ∉ stopWords ∧ cleanWord w ≠ [] then
      if maxW ≤ acc.length + 1 then acc ++ [cleanWord w]
      else phase1 ws maxW (acc ++ [cleanWord w])
    else phase1 ws maxW acc

/-- Second word-collection loop of `shorten_title_for_filename`
(lines 144-150): re-add cleaned tokens not already kept, breaking at 4. -/
def phase2 : List Str → List Str → List Str
  | [], acc => acc
  | w :: ws, acc =>
    if cleanWord w ≠ [] ∧ cleanWord w ∉ acc then
      if 4 ≤ acc.length + 1 then acc ++ [cleanWord w]
      else phase2 ws (acc ++ [cleanWord w])
    else phase2 ws acc

/-- Embedding of `shorten_title_for_filename` (research_paper_util.py, lines 104-152).
The Python default for `max_words` is 6; it is passed explicitly here. -/
def shorten_title_for_filename (title : Str) (maxWords : Nat) : Str :=
  let ws := pyWords title
  let kw := phase1 ws maxWords []
  let kw := if kw.length < 3 ∧ kw.length < ws.length then phase2 ws kw else kw
  joinSpace kw

/-! ## External-world model

The oracle (Claude), the rmapi bridge subprocess and the local filesystem
are external collaborators.  A `World` fixes the observable outcome of each
call a single run can make; embedded operations return their Python result
together with the ordered list of external `Event`s they issued. -/

/-- Python truthiness of an `Optional[str]`: `not x` is true for `None`
and for the empty string. -/
def falsy : Option Str → Bool
  | none => true
  | some s => s.isEmpty

/-- Observable calls issued by one run, in order. -/
inductive Event where
  | claude : Event
  | lsRoot : Event
  | lsPapers : Event
  | mkdirPapers : Event
  | mkdirCat : Str → Event
  | put : Str → Str → Event
  | mv : Str → Str → Event
deriving DecidableEq, Repr

/-- Outcome of the Claude API call inside `analyze_paper_with_claude`:
the call raises, returns a non-text first block, returns text that fails
JSON/key extraction, or returns text parsing to the two fields. -/
inductive OracleResp where
  | raiseErr : OracleResp
  | nonText : OracleResp
  | badParse : OracleResp
  | parsed : Str → Str → OracleResp
deriving DecidableEq, Repr

/-- Fixed outcomes of the external calls available to one run. -/
structure World where
  /-- Value of `os.getenv("ANTHROPIC_API_KEY")`. -/
  apiKey : Option Str
  /-- Outcome of the Claude messages call. -/
  oracle : OracleResp
  /-- Result of `os.path.exists(paper_path)` for the one path this run uploads. -/
  fileExists : Bool
  /-- stdout of `rmapi ls /` (empty when the listing fails). -/
  lsRootOut : Str
  /-- stdout of `rmapi ls /papers` (empty when the listing fails). -/
  lsPapersOut : Str
  /-- whether `rmapi mkdir /papers` exits 0. -/
  mkdirPapersOk : Bool
  /-- whether `rmapi mkdir /papers/<category>` exits 0. -/
  mkdirCatOk : Bool
  /-- whether `rmapi put ...` exits 0. -/
  putOk : Bool
  /-- whether `rmapi mv ...` exits 0. -/
  mvOk : Bool
deriving DecidableEq, Repr

/-- Does `pat` occur at the head of `l`? (Bool worker for `occursIn`.) -/
def leadsWith : Str → Str → Bool
  | [], _ => true
  | _ :: _, [] => false
  | a :: as, b :: bs => a == b && leadsWith as bs

/-- Python `pat in s`: contiguous-substring test. -/
def occursIn (pat : Str) : Str → Bool
  | [] => pat.isEmpty
  | c :: cs => leadsWith pat (c :: cs) || occursIn pat cs

/-- Python `Path(p).name` for a file path: the part after the last `/`. -/
def baseName (p : Str) : Str :=
  (p.reverse.takeWhile (fun c => !(c == '/'))).reverse

/-- Index of the last `'.'` in a name (Python `name.rfind('.')`). -/
def rfindDot (name : Str) : Option Nat :=
  match name.reverse.findIdx? (fun c => c == '.') with
  | none => none
  | some j => some (name.length - 1 - j)

/-- Python `Path(p).stem`: the final component without its last suffix
(the suffix only counts when the dot is neither first nor last). -/
def stemOf (p : Str) : Str :=
  let name := baseName p
  match rfindDot name with
  | none => name
  | some i => if 0 < i ∧ i + 1 < name.length then name.take i else name

/-- Fuel-indexed worker for `replacePdf` (fuel keeps the recursion
structural; it never runs out since each step consumes a character). -/
def replacePdfF : Nat → Str → Str
  | 0, l => l
  | _ + 1, [] => []
  | n + 1, c :: cs =>
    if leadsWith pdfExt (c :: cs) then replacePdfF n (cs.drop 3)
    else c :: replacePdfF n cs

/-- Python `s.replace(".pdf", "")`: remove every occurrence of `".pdf"`,
scanning left to right. -/
def replacePdf (l : Str) : Str := replacePdfF l.length l

/-- The string `"Uncategorized"`. -/
def uncategorized : Str := "Uncategorized".toList

/-- The string `"papers"` checked against the root listing. -/
def papersName : Str := "papers".toList

/-- The string `"/papers/<category>/"`, the put destination directory. -/
def papersDirOf (classification : Str) : Str :=
  "/papers/".toList ++ classification ++ ['/']

/-- The string `"/papers/<category>/<name>"`, an mv argument. -/
def catFileOf (classification name : Str) : Str :=
  "/papers/".toList ++ classification ++ ['/'] ++ name

/-- Embedding of `analyze_paper_with_claude` (research_paper_util.py, lines 13-87).
A missing or empty `ANTHROPIC_API_KEY` raises `ValueError` (modelled as
`.error ()`).  A raised API call or a text response failing JSON/key
extraction is caught and yields the fallback
`("Uncategorized", Path(paper_path).stem)`.  A non-text first content
block returns `("", "")`.  Otherwise the parsed
`(classification, title)` pair is returned. -/
def analyze_paper_with_claude (w : World) (paper_path : Str) :
    Except Unit (Str × Str) :=
  if falsy w.apiKey then .error ()
  else
    match w.oracle with
    | .raiseErr => .ok (uncategorized, stemOf paper_path)
    | .badParse => .ok (uncategorized, stemOf paper_path)
    | .nonText => .ok ([], [])
    | .parsed c t => .ok (c, t)

/-- Second half of `ensure_directory`: list `/papers`, create
`/papers/<classification>` when the listing does not contain it. -/
def ensurePapersCat (w : World) (classification : Str) (tr : List Event) :
    Bool × List Event :=
  let tr := tr ++ [Event.lsPapers]
  if occursIn classification w.lsPapersOut then (true, tr)
  else
    let tr := tr ++ [Event.mkdirCat classification]
    if w.mkdirCatOk then (true, tr) else (false, tr)

/-- Embedding of `RMAPI.ensure_directory` (rmapi.py, lines 64-109): list `/`; create
`/papers` when `"papers"` is not a substring of the listing (a failed
`mkdir` raises `CalledProcessError`, caught to return `False`); then list
`/papers` and create `/papers/<classification>` the same way. -/
def ensure_directory (w : World) (classification : Str) : Bool × List Event :=
  let tr : List Event := [Event.lsRoot]
  if occursIn papersName w.lsRootOut then ensurePapersCat w classification tr
  else
    let tr := tr ++ [Event.mkdirPapers]
    if w.mkdirPapersOk then ensurePapersCat w classification tr
    else (false, tr)

/-- Rename step of `upload_paper` (rmapi.py, lines 167-182): compare the
full original basename with the full target filename; on mismatch issue
`rmapi mv` (suppressed under `dry_run`), whose `check=True` failure is
caught by the surrounding `except` and returns `False`. -/
def uploadRename (w : World) (paper_path classification name : Str)
    (dry_run : Bool) (tr : List Event) : Except Unit Bool × List Event :=
  let original := baseName paper_path
  if original ≠ name then
    if !dry_run then
      let tr := tr ++ [Event.mv (catFileOf classification (replacePdf original))
        (catFileOf classification (replacePdf name))]
      if w.mvOk then (.ok true, tr) else (.ok false, tr)
    else (.ok true, tr)
  else (.ok true, tr)

/-- Put step of `upload_paper` (rmapi.py, lines 153-165): under `dry_run`
the put (and its return-code check) is skipped; otherwise a non-zero put
returns `False`. -/
def uploadPut (w : World) (paper_path classification name : Str)
    (dry_run : Bool) (tr : List Event) : Except Unit Bool × List Event :=
  if !dry_run then
    let tr := tr ++ [Event.put paper_path (papersDirOf classification)]
    if w.putOk then uploadRename w paper_path classification name dry_run tr
    else (.ok false, tr)
  else uploadRename w paper_path classification name dry_run tr

/-- Tail of `upload_paper` once title and classification are known
(rmapi.py, lines 140-185): derive the formatted filename when none was
given, require `ensure_directory` to succeed, then put and rename. -/
def uploadFile (w : World) (paper_path title classification : Str)
    (output_file_name : Option Str) (dry_run : Bool) (tr : List Event) :
    Except Unit Bool × List Event :=
  let name :=
    if falsy output_file_name then generate_formatted_filename title
    else output_file_name.getD []
  let (ok, tr2) := ensure_directory w classification
  let tr := tr ++ tr2
  if ok then uploadPut w paper_path classification name dry_run tr
  else (.ok false, tr)

/-- Embedding of `RMAPI.upload_paper` (rmapi.py, lines 111-188).  Returns `False` when
the local file is missing; consults `analyze_paper_with_claude` when the
title or the classification is falsy (`None` or empty), filling only the
missing one(s); an exception from the analysis (missing API key)
propagates out. -/
def upload_paper (w : World) (paper_path : Str)
    (title classification output_file_name : Option Str) (dry_run : Bool) :
    Except Unit Bool × List Event :=
  if !w.fileExists then (.ok false, [])
  else if falsy title || falsy classification then
    match analyze_paper_with_claude w paper_path with
    | .error e => (.error e, [Event.claude])
    | .ok (c, t) =>
      let title' := if falsy title then t else title.getD []
      let class' := if falsy classification then c else classification.getD []
      uploadFile w paper_path title' class' output_file_name dry_run [Event.claude]
  else
    uploadFile w paper_path (title.getD []) (classification.getD [])
      output_file_name dry_run []

/-- Embedding of `handle_arxiv_paper` (upload.py, lines 14-38) for an already-resolved
arXiv id.  `meta` is the `(title, category)` pair from `get_metadata()`;
`downloadOk` tells whether `download_paper()` returned a path (when it
returns `None`, the later `os.path.exists(None)` raises `TypeError`,
modelled as `.error ()`).  The function returns `False` on a falsy title
and otherwise falls off the end, returning Python `None` (modelled
`Option.none`); the `upload_paper` result is discarded. -/
def handle_arxiv_paper (w : World) (meta : Option Str × Option Str)
    (downloadOk : Bool) (docId : Str) (dry_run : Bool) :
    Except Unit (Option Bool) × List Event :=
  if falsy meta.1 then (.ok (some false), [])
  else if !downloadOk then (.error (), [])
  else
    let outputPath := "/tmp/arxiv_".toList ++
      (docId.map (fun c => if c == '/' then '_' else c)) ++ pdfExt
    match upload_paper w outputPath meta.1 meta.2 none dry_run with
    | (.error e, tr) => (.error e, tr)
    | (.ok _, tr) => (.ok none, tr)

/-- Embedding of `main` (upload.py, lines 40-67) for a given positional argument.
`parseOk` is whether `ArxivFetcher(input)` succeeded (no `InvalidArxivId`);
on failure the input is uploaded as a local file.  `sys.exit(0 if success
else 1)` exits 0 only when `success` is truthy (`True`; not `None`, not
`False`); an uncaught exception also ends the process with exit code 1. -/
def run (w : World) (parseOk : Bool) (docId : Str)
    (meta : Option Str × Option Str) (downloadOk : Bool) (input : Str)
    (dry_run : Bool) : Nat × List Event :=
  if parseOk then
    match handle_arxiv_paper w meta downloadOk docId dry_run with
    | (.error _, tr) => (1, tr)
    | (.ok s, tr) => (if s = some true then 0 else 1, tr)
  else
    match upload_paper w input none none none dry_run with
    | (.error _, tr) => (1, tr)
    | (.ok b, tr) => (if b then 0 else 1, tr)

deriving instance DecidableEq for Except

/-- Is this event a bridge `put`? -/
def isPutEvent : Event → Bool
  | .put _ _ => true
  | _ => false

/-- Is this event a bridge `mv` (rename)? -/
def isMvEvent : Event → Bool
  | .mv _ _ => true
  | _ => false

/-- A directory listing whose entries appear one per line. -/
def joinLines : List Str → Str
  | [] => []
  | [e] => e
  | e :: rest => e ++ '\n' :: joinLines rest

/-- A fully cooperative world: key present, oracle parses, file present,
both directories already listed, every bridge call succeeds. -/
def W0 : World :=
  { apiKey := some ['k']
    oracle := .parsed "Physics".toList "Dark Matter Survey".toList
    fileExists := true
    lsRootOut := "papers".toList
    lsPapersOut := "Physics".toList
    mkdirPapersOk := true
    mkdirCatOk := true
    putOk := true
    mvOk := true }

/-- Number of whitespace-separated tokens of a string. -/
def tokenCount (s : Str) : Nat := (pyWords s).length

/-- The distinct nonempty punctuation-stripped tokens of a title. -/
def distinctCleanCount (title : Str) : Nat :=
  (((pyWords title).map cleanWord).filter (fun w => w ≠ [])).dedup.length

/-! ## Theorems -/

theorem pyWordsF_nil : ∀ n, pyWordsF n [] = []
  | 0 => rfl
  | _ + 1 => rfl

theorem pyWordsF_congr : ∀ n m : Nat, ∀ l : Str,
    l.length ≤ n → l.length ≤ m → pyWordsF n l = pyWordsF m l
  | 0, m, l, hn, _ => by
    have : l = [] := List.eq_nil_of_length_eq_zero (Nat.le_zero.mp hn)
    subst this; rw [pyWordsF_nil, pyWordsF_nil]
  | n + 1, m, [], _, _ => by rw [pyWordsF_nil, pyWordsF_nil]
  | n + 1, m, c :: cs, hn, hm => by
    obtain ⟨m', rfl⟩ : ∃ m', m = m' + 1 := by
      cases m with
      | zero => exact absurd hm (by simp)
      | succ k => exact ⟨k, rfl⟩
    have hcs_n : cs.length ≤ n := Nat.le_of_succ_le_succ hn
    have hcs_m : cs.length ≤ m' := Nat.le_of_succ_le_succ hm
    have hdrop : (cs.dropWhile (fun d => !isWS d)).length ≤ cs.length :=
      (List.dropWhile_sublist _).length_le
    simp only [pyWordsF]
    split
    · exact pyWordsF_congr n m' cs hcs_n hcs_m
    · rw [pyWordsF_congr n m' _ (le_trans hdrop hcs_n) (le_trans hdrop hcs_m)]

/-- Unfolding rule for `pyWords` on a nonempty string. -/
theorem pyWords_cons (c : Char) (cs : Str) :
    pyWords (c :: cs) =
      if isWS c then pyWords cs
      else (c :: cs.takeWhile (fun d => !isWS d)) ::
        pyWords (cs.dropWhile (fun d => !isWS d)) := by
  show pyWordsF (cs.length + 1) (c :: cs) = _
  simp only [pyWordsF, pyWords]
  split
  · rfl
  · rw [pyWordsF_congr cs.length (cs.dropWhile (fun d => !isWS d)).length _
      (List.dropWhile_sublist _).length_le (le_refl _)]

example : generate_formatted_filename "  A*b?c  d ".toList = "Abc d.pdf".toList := by decide
example : generate_formatted_filename "".toList = ".pdf".toList := by decide
example : shorten_title_for_filename "Attention Is All You Need".toList 6
    = "Attention Is All You Need".toList := by decide
example : shorten_title_for_filename "A Survey of the Theory of Rings".toList 6
    = "Survey Theory Rings".toList := by decide
example : shorten_title_for_filename "On the Origin of Species".toList 6
    = "Origin Species On the".toList := by decide

example :
    upload_paper W0 "/tmp/paper.pdf".toList none none none false =
      (.ok true,
        [Event.claude, Event.lsRoot, Event.lsPapers,
         Event.put "/tmp/paper.pdf".toList "/papers/Physics/".toList,
         Event.mv "/papers/Physics/paper".toList
           "/papers/Physics/Dark Matter Survey".toList]) := by decide

/-- C1: the Intake Dispatcher is claimed to exit 0 when the chosen path
succeeds.  On a fully successful remote-identifier run — metadata title
present, download succeeds, the bridge put and rename both succeed (the
trace below shows the successful upload) — the process nevertheless exits
with code 1, because `handle_arxiv_paper` falls off its end returning
`None` although its docstring promises `True` on success. -/
theorem C1_successful_arxiv_run_exits_one :
    run W0 true "2301.12345".toList
      (some "Dark Matter Survey".toList, some "Physics".toList) true
      "2301.12345".toList false =
    (1, [Event.lsRoot, Event.lsPapers,
         Event.put "/tmp/arxiv_2301.12345.pdf".toList "/papers/Physics/".toList,
         Event.mv "/papers/Physics/arxiv_2301.12345".toList
           "/papers/Physics/Dark Matter Survey".toList]) := by decide

/-- C2 counterexample: with `ANTHROPIC_API_KEY` unset,
`analyze_paper_with_claude` raises `ValueError` to its caller instead of
returning the fallback result; the claim "never raises … on missing
credentials returns the fallback" is false. -/
theorem C2_missing_key_raises :
    analyze_paper_with_claude { W0 with apiKey := none } "/tmp/paper.pdf".toList
      = .error () := by decide

/-- C2 amended: `analyze_paper_with_claude` raises `ValueError` when the
API key is missing or empty; otherwise it never fails outward: an oracle
error or a malformed (unparsable) text response yields the fallback
`("Uncategorized", file stem)`, a non-text response block yields
`("", "")`, and a well-formed response yields its two fields. -/
theorem C2_amended_classify (w : World) (p : Str) :
    (falsy w.apiKey = true → analyze_paper_with_claude w p = .error ()) ∧
    (falsy w.apiKey = false → (w.oracle = .raiseErr ∨ w.oracle = .badParse) →
      analyze_paper_with_claude w p = .ok (uncategorized, stemOf p)) ∧
    (falsy w.apiKey = false → w.oracle = .nonText →
      analyze_paper_with_claude w p = .ok ([], [])) ∧
    (falsy w.apiKey = false → ∀ c t, w.oracle = .parsed c t →
      analyze_paper_with_claude w p = .ok (c, t)) := by
  refine ⟨fun hk => ?_, fun hk ho => ?_, fun hk ho => ?_, fun hk c t ho => ?_⟩
  · simp [analyze_paper_with_claude, hk]
  · cases ho <;> simp_all [analyze_paper_with_claude]
  · simp [analyze_paper_with_claude, hk, ho]
  · simp [analyze_paper_with_claude, hk, ho]

theorem C2_amended_classify_witness :
    analyze_paper_with_claude { W0 with oracle := .raiseErr } "/tmp/x.pdf".toList
      = .ok ("Uncategorized".toList, "x".toList) := by
  have h := (C2_amended_classify { W0 with oracle := .raiseErr }
    "/tmp/x.pdf".toList).2.1 (by decide) (Or.inl rfl)
  rw [h]; decide

/-- C3 counterexample: the identifier resolves (`parseOk = true`) but the
metadata fetch returns a null title; the run exits 1 having issued no
external call at all — in particular `place` is never called, so the
claimed fallback to local-file handling does not happen. -/
theorem C3_null_title_aborts :
    run W0 true "2301.12345".toList (none, some "Physics".toList) true
      "2301.12345".toList false = (1, []) := by decide

/-- C3 amended: when identifier resolution succeeds but the metadata title
is null (or empty), the dispatcher aborts the run with exit code 1 without
calling `place` (no bridge call is made); the local-file fallback happens
only on resolver failure. -/
theorem C3_amended_null_title_aborts (w : World) (docId input : Str)
    (meta : Option Str × Option Str) (downloadOk : Bool) (dry : Bool)
    (h : falsy meta.1 = true) :
    run w true docId meta downloadOk input dry = (1, []) := by
  simp [run, handle_arxiv_paper, h]

theorem C3_amended_null_title_aborts_witness :
    run W0 true "2301.12345".toList (none, some "Physics".toList) true
      "2301.12345".toList true = (1, []) :=
  C3_amended_null_title_aborts W0 "2301.12345".toList "2301.12345".toList
    (none, some "Physics".toList) true true rfl

theorem falsy_none : falsy none = true := rfl

theorem falsy_some_of_ne (s : Str) (h : s ≠ []) : falsy (some s) = false := by
  simp [falsy, List.isEmpty_iff, h]

theorem analyze_parsed (w : World) (p : Str) (hk : falsy w.apiKey = false)
    (c t : Str) (ho : w.oracle = .parsed c t) :
    analyze_paper_with_claude w p = .ok (c, t) := by
  simp [analyze_paper_with_claude, hk, ho]

theorem uploadRename_trace (w : World) (p c n : Str) (dry : Bool)
    (tr : List Event) : ∃ s, (uploadRename w p c n dry tr).2 = tr ++ s := by
  simp only [uploadRename]
  split
  · split
    · split
      · exact ⟨_, rfl⟩
      · exact ⟨_, rfl⟩
    · exact ⟨[], by simp⟩
  · exact ⟨[], by simp⟩

theorem uploadPut_trace (w : World) (p c n : Str) (dry : Bool)
    (tr : List Event) : ∃ s, (uploadPut w p c n dry tr).2 = tr ++ s := by
  simp only [uploadPut]
  split
  · split
    · obtain ⟨s, hs⟩ := uploadRename_trace w p c n dry
        (tr ++ [Event.put p (papersDirOf c)])
      exact ⟨_, by rw [hs, List.append_assoc]⟩
    · exact ⟨_, rfl⟩
  · exact uploadRename_trace w p c n dry tr

theorem uploadFile_trace (w : World) (p t c : Str) (ofn : Option Str)
    (dry : Bool) (tr : List Event) :
    ∃ s, (uploadFile w p t c ofn dry tr).2 = tr ++ s := by
  rcases hed : ensure_directory w c with ⟨ok, tr2⟩
  simp only [uploadFile, hed]
  split
  · obtain ⟨s, hs⟩ := uploadPut_trace w p c
      (if falsy ofn then generate_formatted_filename t else ofn.getD []) dry (tr ++ tr2)
    exact ⟨_, by rw [hs, List.append_assoc]⟩
  · exact ⟨_, rfl⟩

theorem uploadPut_put_mem (w : World) (p c n : Str) (tr : List Event) :
    Event.put p (papersDirOf c) ∈ (uploadPut w p c n false tr).2 := by
  simp only [uploadPut, Bool.not_false, if_true]
  split
  · obtain ⟨s, hs⟩ := uploadRename_trace w p c n false
      (tr ++ [Event.put p (papersDirOf c)])
    rw [hs]
    exact List.mem_append_left _ (List.mem_append_right _ (List.mem_singleton.mpr rfl))
  · exact List.mem_append_right _ (List.mem_singleton.mpr rfl)

theorem uploadFile_put_mem (w : World) (p t c : Str) (ofn : Option Str)
    (tr : List Event) (he : (ensure_directory w c).1 = true) :
    Event.put p (papersDirOf c) ∈ (uploadFile w p t c ofn false tr).2 := by
  rcases hed : ensure_directory w c with ⟨ok, tr2⟩
  rw [hed] at he
  simp only at he
  subst he
  simp only [uploadFile, hed, if_true]
  exact uploadPut_put_mem w p c _ (tr ++ tr2)

theorem ensure_directory_no_put_mv (w : World) (cl : Str) :
    ((ensure_directory w cl).2.all
      (fun e => !isPutEvent e && !isMvEvent e)) = true := by
  cases hroot : occursIn papersName w.lsRootOut <;>
  cases hcat : occursIn cl w.lsPapersOut <;>
  cases hmp : w.mkdirPapersOk <;>
  cases hmc : w.mkdirCatOk <;>
  simp [ensure_directory, ensurePapersCat, hroot, hcat, hmp, hmc,
    isPutEvent, isMvEvent]

/-- C4 counterexample: remote-identifier run where metadata yields a title
but a null category.  `upload_paper` is called with `classification=None`,
so it consults the Classifier Adapter (the `claude` event) and files under
the oracle's category `Quantum` — not under `"Uncategorized"`, and the
oracle *is* invoked, contradicting both halves of the claim. -/
theorem C4_oracle_is_consulted :
    run { W0 with
        oracle := .parsed "Quantum".toList "Short Title".toList,
        lsPapersOut := "Quantum".toList }
      true "2301.00001".toList (some "Metadata Title".toList, none) true
      "2301.00001".toList false =
    (1, [Event.claude, Event.lsRoot, Event.lsPapers,
         Event.put "/tmp/arxiv_2301.00001.pdf".toList "/papers/Quantum/".toList,
         Event.mv "/papers/Quantum/arxiv_2301.00001".toList
           "/papers/Quantum/Metadata Title".toList]) := by decide

/-- C4 amended: in the remote-identifier path with a non-null title and a
null category, `upload_paper` *does* invoke the Classifier Adapter, and —
when the oracle response parses as `(c, t)` and the directory step
succeeds — a live run puts the file into `/papers/<c>/`, i.e. it is filed
under the oracle's category (`"Uncategorized"` arises only from the
oracle's own fallback). -/
theorem C4_amended_null_category (w : World) (path title : Str)
    (ofn : Option Str) (dry : Bool) (c t : Str) (hf : w.fileExists = true)
    (ht : title ≠ []) (hk : falsy w.apiKey = false)
    (ho : w.oracle = .parsed c t) :
    Event.claude ∈ (upload_paper w path (some title) none ofn dry).2 ∧
    ((ensure_directory w c).1 = true → dry = false →
      Event.put path (papersDirOf c) ∈
        (upload_paper w path (some title) none ofn dry).2) := by
  have htf : falsy (some title) = false := falsy_some_of_ne title ht
  have hup : upload_paper w path (some title) none ofn dry =
      uploadFile w path title c ofn dry [Event.claude] := by
    unfold upload_paper
    simp [hf, htf, falsy_none, analyze_parsed w path hk c t ho]
  rw [hup]
  constructor
  · obtain ⟨s, hs⟩ := uploadFile_trace w path title c ofn dry [Event.claude]
    rw [hs]
    exact List.mem_append_left _ (List.mem_singleton.mpr rfl)
  · intro he hdry
    subst hdry
    exact uploadFile_put_mem w path title c ofn [Event.claude] he

theorem C4_amended_null_category_witness :
    Event.claude ∈ (upload_paper
      { W0 with
        oracle := .parsed "Quantum".toList "Short Title".toList,
        lsPapersOut := "Quantum".toList }
      "/tmp/a.pdf".toList (some "Metadata Title".toList) none none false).2 ∧
    Event.put "/tmp/a.pdf".toList "/papers/Quantum/".toList ∈ (upload_paper
      { W0 with
        oracle := .parsed "Quantum".toList "Short Title".toList,
        lsPapersOut := "Quantum".toList }
      "/tmp/a.pdf".toList (some "Metadata Title".toList) none none false).2 := by
  have h := C4_amended_null_category
    { W0 with
      oracle := .parsed "Quantum".toList "Short Title".toList,
      lsPapersOut := "Quantum".toList }
    "/tmp/a.pdf".toList "Metadata Title".toList none false
    "Quantum".toList "Short Title".toList rfl (by decide) rfl rfl
  refine ⟨h.1, ?_⟩
  have hput := h.2 (by decide) rfl
  have hdir : papersDirOf "Quantum".toList = "/papers/Quantum/".toList := by decide
  rw [hdir] at hput
  exact hput

theorem uploadRename_dry (w : World) (p c n : Str) (tr : List Event) :
    uploadRename w p c n true tr = (.ok true, tr) := by
  simp only [uploadRename]
  split <;> simp

theorem uploadRename_live_fst (w : World) (p c n : Str) (tr : List Event)
    (hmv : w.mvOk = true) :
    (uploadRename w p c n false tr).1 = .ok true := by
  simp only [uploadRename]
  split <;> simp [hmv]

theorem uploadPut_dry (w : World) (p c n : Str) (tr : List Event) :
    uploadPut w p c n true tr = (.ok true, tr) := by
  simp [uploadPut, uploadRename_dry]

theorem uploadPut_live_fst (w : World) (p c n : Str) (tr : List Event)
    (hp : w.putOk = true) (hmv : w.mvOk = true) :
    (uploadPut w p c n false tr).1 = .ok true := by
  simp [uploadPut, hp, uploadRename_live_fst w p c n _ hmv]

theorem uploadFile_dry_live_fst (w : World) (p t c : Str) (ofn : Option Str)
    (tr : List Event) (hp : w.putOk = true) (hmv : w.mvOk = true) :
    (uploadFile w p t c ofn true tr).1 = (uploadFile w p t c ofn false tr).1 := by
  rcases hed : ensure_directory w c with ⟨ok, tr2⟩
  simp only [uploadFile, hed]
  cases ok
  · simp
  · simp [uploadPut_dry, uploadPut_live_fst w p c _ _ hp hmv]

theorem uploadFile_dry (w : World) (p t c : Str) (ofn : Option Str)
    (tr : List Event) :
    uploadFile w p t c ofn true tr =
      ((if (ensure_directory w c).1 then Except.ok true else Except.ok false),
        tr ++ (ensure_directory w c).2) := by
  rcases hed : ensure_directory w c with ⟨ok, tr2⟩
  simp only [uploadFile, hed]
  cases ok
  · simp
  · simp [uploadPut_dry]

theorem uploadFile_dry_no_put_mv (w : World) (p t c : Str)
    (ofn : Option Str) (tr0 : List Event)
    (h0 : tr0.all (fun e => !isPutEvent e && !isMvEvent e) = true) :
    ((uploadFile w p t c ofn true tr0).2.all
      (fun e => !isPutEvent e && !isMvEvent e)) = true := by
  rw [uploadFile_dry]
  simp only [List.all_append]
  rw [h0, ensure_directory_no_put_mv]
  rfl

/-- C5 counterexample: in a world where the bridge put would fail (every
other call succeeding, the remote directory state unchanged between the
two runs), a `dryRun=true` call of `upload_paper` reports success while
the `dryRun=false` call reports failure — the two runs do not return the
same success value. -/
theorem C5_dry_and_live_results_differ :
    (upload_paper { W0 with putOk := false } "/tmp/paper.pdf".toList
        (some "Dark Matter Survey".toList) (some "Physics".toList)
        none true).1 = .ok true ∧
    (upload_paper { W0 with putOk := false } "/tmp/paper.pdf".toList
        (some "Dark Matter Survey".toList) (some "Physics".toList)
        none false).1 = .ok false := by
  constructor <;> decide

/-- C5 amended: `upload_paper` with `dry_run=true` issues no `put` and no
`mv` bridge call (though `ensure_directory`, and possibly the classifier,
still run live), and it returns the same success value as the
`dry_run=false` run against the same remote state *provided* the put and
the rename would succeed there; when the live put or rename fails the dry
run still reports success. -/
theorem C5_amended_dry_run (w : World) (p : Str)
    (title classification ofn : Option Str) :
    ((upload_paper w p title classification ofn true).2.all
      (fun e => !isPutEvent e && !isMvEvent e)) = true ∧
    (w.putOk = true → w.mvOk = true →
      (upload_paper w p title classification ofn true).1 =
        (upload_paper w p title classification ofn false).1) := by
  constructor
  · unfold upload_paper
    cases hfe : w.fileExists
    · simp
    · simp only [Bool.not_true, Bool.false_eq_true, if_false]
      by_cases hcl : (falsy title || falsy classification) = true
      · simp only [hcl, if_true]
        rcases ha : analyze_paper_with_claude w p with e | ⟨c, t⟩
        · rfl
        · exact uploadFile_dry_no_put_mv w p _ _ ofn [Event.claude] rfl
      · simp only [hcl, if_false]
        exact uploadFile_dry_no_put_mv w p _ _ ofn [] rfl
  · intro hp hmv
    unfold upload_paper
    cases hfe : w.fileExists
    · simp
    · simp only [Bool.not_true, Bool.false_eq_true, if_false]
      by_cases hcl : (falsy title || falsy classification) = true
      · simp only [hcl, if_true]
        rcases ha : analyze_paper_with_claude w p with e | ⟨c, t⟩
        · simp
        · simp only []
          exact uploadFile_dry_live_fst w p _ _ ofn [Event.claude] hp hmv
      · simp only [hcl, if_false]
        exact uploadFile_dry_live_fst w p _ _ ofn [] hp hmv

theorem C5_amended_dry_run_witness :
    ((upload_paper W0 "/tmp/paper.pdf".toList none none none true).2.all
      (fun e => !isPutEvent e && !isMvEvent e)) = true ∧
    (upload_paper W0 "/tmp/paper.pdf".toList none none none true).1 =
      (upload_paper W0 "/tmp/paper.pdf".toList none none none false).1 :=
  ⟨(C5_amended_dry_run W0 "/tmp/paper.pdf".toList none none none).1,
   (C5_amended_dry_run W0 "/tmp/paper.pdf".toList none none none).2 rfl rfl⟩

/-- C6 counterexample: uploading local file `/tmp/foo` (basename `foo`)
with target filename `foo.pdf`: the two names are equal under
extension-stripped comparison, yet the code — which compares the full
basenames — still issues a rename. -/
theorem C6_rename_despite_stripped_equality :
    stripPdf (baseName "/tmp/foo".toList) = stripPdf "foo.pdf".toList ∧
    ((upload_paper W0 "/tmp/foo".toList (some "T".toList)
        (some "Physics".toList) (some "foo.pdf".toList) false).2.any
      isMvEvent) = true := by
  constructor <;> decide

/-- C6 amended: in a live run whose put succeeds, a rename is issued if
and only if the uploaded file's full basename differs from the desired
target filename under *exact* string comparison (extensions included);
only the `mv` arguments, not the comparison, are extension-stripped. -/
theorem C6_amended_rename_iff_exact_mismatch (w : World)
    (path title classification name : Str) (hf : w.fileExists = true)
    (ht : title ≠ []) (hc : classification ≠ []) (hn : name ≠ [])
    (he : (ensure_directory w classification).1 = true)
    (hp : w.putOk = true) :
    ((upload_paper w path (some title) (some classification) (some name)
        false).2.any isMvEvent) = true ↔ baseName path ≠ name := by
  have htf : falsy (some title) = false := falsy_some_of_ne title ht
  have hcf : falsy (some classification) = false := falsy_some_of_ne classification hc
  have hnf : falsy (some name) = false := falsy_some_of_ne name hn
  rcases hed : ensure_directory w classification with ⟨ok, tr2⟩
  rw [hed] at he
  simp only at he
  subst he
  have htr2 : tr2.any isMvEvent = false := by
    have h := ensure_directory_no_put_mv w classification
    rw [hed] at h
    simp only [List.all_eq_true] at h
    simp only [List.any_eq_false]
    intro e hei
    have h2 := (h e hei)
    simp only [Bool.and_eq_true, Bool.not_eq_true'] at h2
    simp [h2.2]
  have hup : upload_paper w path (some title) (some classification)
      (some name) false =
      uploadRename w path classification name false
        (tr2 ++ [Event.put path (papersDirOf classification)]) := by
    unfold upload_paper
    simp only [hf, Bool.not_true, Bool.false_eq_true, if_false, htf, hcf,
      Bool.or_self, if_false, Option.getD_some]
    unfold uploadFile
    simp only [hnf, Bool.false_eq_true, if_false, Option.getD_some, hed,
      if_true, List.nil_append]
    unfold uploadPut
    simp only [Bool.not_false, if_true, hp]
  rw [hup]
  simp only [uploadRename]
  by_cases hbn : baseName path ≠ name
  · rw [if_pos hbn]
    simp only [Bool.not_false, if_true]
    constructor
    · intro _; exact hbn
    · intro _
      cases hmv : w.mvOk <;>
        simp [hmv, List.any_append, htr2, isMvEvent]
  · rw [if_neg hbn]
    simp only [List.any_append, htr2, Bool.false_or]
    constructor
    · intro hx
      exact absurd hx (by simp [isMvEvent])
    · intro hx; exact absurd hx hbn

theorem C6_amended_rename_iff_exact_mismatch_witness :
    baseName "/tmp/paper.pdf".toList ≠ "Dark Matter Survey.pdf".toList ∧
    ((upload_paper W0 "/tmp/paper.pdf".toList (some "T".toList)
        (some "Physics".toList) (some "Dark Matter Survey.pdf".toList)
        false).2.any isMvEvent) = true := by
  refine ⟨by decide, ?_⟩
  exact (C6_amended_rename_iff_exact_mismatch W0 "/tmp/paper.pdf".toList
    "T".toList "Physics".toList "Dark Matter Survey.pdf".toList rfl
    (by decide) (by decide) (by decide) (by decide) rfl).mpr (by decide)

theorem leadsWith_append_self : ∀ a r : Str, leadsWith a (a ++ r) = true
  | [], _ => rfl
  | c :: cs, r => by
    simp only [List.cons_append, leadsWith, beq_self_eq_true, Bool.true_and]
    exact leadsWith_append_self cs r

theorem occursIn_of_leadsWith (n l : Str) (h : leadsWith n l = true) :
    occursIn n l = true := by
  cases l with
  | nil =>
    cases n with
    | nil => rfl
    | cons c cs => exact absurd h (by simp [leadsWith])
  | cons c cs => simp [occursIn, h]

theorem occursIn_append_right (n r : Str) (h : occursIn n r = true) :
    ∀ l : Str, occursIn n (l ++ r) = true
  | [] => h
  | c :: cs => by
    simp only [List.cons_append, occursIn, Bool.or_eq_true]
    exact Or.inr (occursIn_append_right n r h cs)

theorem occursIn_joinLines_of_mem (a : Str) :
    ∀ entries : List Str, a ∈ entries → occursIn a (joinLines entries) = true
  | [], h => absurd h (List.not_mem_nil a)
  | e :: rest, h => by
    rcases List.mem_cons.mp h with rfl | hmem
    · cases rest with
      | nil =>
        show occursIn a a = true
        have := leadsWith_append_self a []
        rw [List.append_nil] at this
        exact occursIn_of_leadsWith a a this
      | cons f fs =>
        show occursIn a (a ++ '\n' :: joinLines (f :: fs)) = true
        exact occursIn_of_leadsWith _ _ (leadsWith_append_self a _)
    · cases rest with
      | nil => exact absurd hmem (List.not_mem_nil a)
      | cons f fs =>
        show occursIn a (e ++ '\n' :: joinLines (f :: fs)) = true
        rw [List.append_cons]
        exact occursIn_append_right a _
          (occursIn_joinLines_of_mem a (f :: fs) hmem) _

/-- C9: `ensure_directory` always lists the root; it creates `/papers`
only when `"papers"` does not occur (as a substring) in the root listing,
and `/papers/<category>` only when the category does not occur in the
`/papers` listing; since the existence check is a substring test, a
listing that contains an entry exactly named equal to the category makes
the category `mkdir` be skipped. -/
theorem C9_ensure_directory_substring_existence (w : World) (cl : Str) :
    Event.lsRoot ∈ (ensure_directory w cl).2 ∧
    (Event.mkdirPapers ∈ (ensure_directory w cl).2 →
      occursIn papersName w.lsRootOut = false) ∧
    (Event.mkdirCat cl ∈ (ensure_directory w cl).2 →
      occursIn cl w.lsPapersOut = false) ∧
    (∀ entries : List Str, w.lsPapersOut = joinLines entries → cl ∈ entries →
      Event.mkdirCat cl ∉ (ensure_directory w cl).2) := by
  cases hroot : occursIn papersName w.lsRootOut <;>
  cases hcat : occursIn cl w.lsPapersOut <;>
  cases hmp : w.mkdirPapersOk <;>
  cases hmc : w.mkdirCatOk <;>
    refine ⟨?_, ?_, ?_, ?_⟩ <;>
    simp [ensure_directory, ensurePapersCat, hroot, hcat, hmp, hmc] <;>
    (intro entries heq hmem
     have hocc := occursIn_joinLines_of_mem cl entries hmem
     rw [← heq] at hocc
     rw [hocc] at hcat
     exact Bool.noConfusion hcat)

theorem C9_ensure_directory_substring_existence_witness :
    Event.mkdirCat "Physics".toList ∉ (ensure_directory
      { W0 with lsPapersOut := joinLines ["Math".toList, "Physics".toList] }
      "Physics".toList).2 :=
  (C9_ensure_directory_substring_existence
    { W0 with lsPapersOut := joinLines ["Math".toList, "Physics".toList] }
    "Physics".toList).2.2.2 ["Math".toList, "Physics".toList] rfl (by decide)

/-- C10: `ensure_directory` runs both `ls` invocations without error
checking, so a listing that failed (empty captured stdout) is treated as
"entry does not exist" and the corresponding `mkdir` calls are attempted;
the function returns failure only when one of the attempted `mkdir`
invocations itself fails. -/
theorem C10_ensure_directory_only_mkdir_fails (w : World) (cl : Str) :
    ((ensure_directory w cl).1 = false →
      (Event.mkdirPapers ∈ (ensure_directory w cl).2 ∧
        w.mkdirPapersOk = false) ∨
      (Event.mkdirCat cl ∈ (ensure_directory w cl).2 ∧
        w.mkdirCatOk = false)) ∧
    (w.lsRootOut = [] → w.lsPapersOut = [] → cl ≠ [] →
      w.mkdirPapersOk = true →
      Event.mkdirPapers ∈ (ensure_directory w cl).2 ∧
      Event.mkdirCat cl ∈ (ensure_directory w cl).2) := by
  constructor
  · intro hfail
    cases hroot : occursIn papersName w.lsRootOut <;>
    cases hcat : occursIn cl w.lsPapersOut <;>
    cases hmp : w.mkdirPapersOk <;>
    cases hmc : w.mkdirCatOk <;>
      simp_all [ensure_directory, ensurePapersCat]
  · intro hr hp hcl hmp
    have hroot : occursIn papersName w.lsRootOut = false := by
      rw [hr]; decide
    have hcat : occursIn cl w.lsPapersOut = false := by
      rw [hp]
      cases cl with
      | nil => exact absurd rfl hcl
      | cons c cs => rfl
    cases hmc : w.mkdirCatOk <;>
      simp [ensure_directory, ensurePapersCat, hroot, hcat, hmp, hmc]

theorem C10_ensure_directory_only_mkdir_fails_witness :
    Event.mkdirPapers ∈ (ensure_directory
      { W0 with lsRootOut := [], lsPapersOut := [] } "Physics".toList).2 ∧
    Event.mkdirCat "Physics".toList ∈ (ensure_directory
      { W0 with lsRootOut := [], lsPapersOut := [] } "Physics".toList).2 :=
  (C10_ensure_directory_only_mkdir_fails
    { W0 with lsRootOut := [], lsPapersOut := [] } "Physics".toList).2
    rfl rfl (by decide) rfl

theorem takeWhile_append_all (p : Char → Bool) :
    ∀ l : Str, (∀ a ∈ l, p a = true) → ∀ t : Str,
      (l ++ t).takeWhile p = l ++ t.takeWhile p ∧
      (l ++ t).dropWhile p = t.dropWhile p
  | [], _, t => ⟨rfl, rfl⟩
  | a :: l, h, t => by
    have ha : p a = true := h a (List.mem_cons_self a l)
    have ih := takeWhile_append_all p l (fun b hb => h b (List.mem_cons_of_mem a hb)) t
    constructor
    · rw [List.cons_append, List.takeWhile_cons_of_pos ha, ih.1]; rfl
    · rw [List.cons_append, List.dropWhile_cons_of_pos ha, ih.2]

theorem pyWords_single (w : Str) (hne : w ≠ [])
    (hws : ∀ c ∈ w, isWS c = false) : pyWords w = [w] := by
  obtain ⟨c, cs, rfl⟩ : ∃ c cs, w = c :: cs := by
    cases w with
    | nil => exact absurd rfl hne
    | cons c cs => exact ⟨c, cs, rfl⟩
  rw [pyWords_cons, if_neg (by simp [hws c (List.mem_cons_self c cs)])]
  rw [List.takeWhile_eq_self_iff.mpr
    (fun a ha => by simp [hws a (List.mem_cons_of_mem c ha)])]
  rw [List.dropWhile_eq_nil_iff.mpr
    (fun a ha => by simp [hws a (List.mem_cons_of_mem c ha)])]
  rfl

theorem pyWords_word_space (w : Str) (hne : w ≠ [])
    (hws : ∀ c ∈ w, isWS c = false) (t : Str) :
    pyWords (w ++ ' ' :: t) = w :: pyWords t := by
  obtain ⟨c, cs, rfl⟩ : ∃ c cs, w = c :: cs := by
    cases w with
    | nil => exact absurd rfl hne
    | cons c cs => exact ⟨c, cs, rfl⟩
  rw [List.cons_append, pyWords_cons,
    if_neg (by simp [hws c (List.mem_cons_self c cs)])]
  have hall : ∀ a ∈ cs, (fun d => !isWS d) a = true :=
    fun a ha => by simp [hws a (List.mem_cons_of_mem c ha)]
  have h := takeWhile_append_all (fun d => !isWS d) cs hall (' ' :: t)
  rw [h.1, h.2]
  rw [List.takeWhile_cons_of_neg (by decide), List.dropWhile_cons_of_neg (by decide)]
  rw [List.append_nil, pyWords_cons, if_pos (by decide)]

theorem pyWords_joinSpace : ∀ ws : List Str, (∀ w ∈ ws, w ≠ []) →
    (∀ w ∈ ws, ∀ c ∈ w, isWS c = false) → pyWords (joinSpace ws) = ws
  | [], _, _ => rfl
  | [w], h1, h2 => by
    show pyWords w = [w]
    exact pyWords_single w (h1 w (List.mem_singleton.mpr rfl))
      (h2 w (List.mem_singleton.mpr rfl))
  | w :: f :: fs, h1, h2 => by
    show pyWords (w ++ ' ' :: joinSpace (f :: fs)) = w :: f :: fs
    rw [pyWords_word_space w (h1 w (List.mem_cons_self _ _))
      (h2 w (List.mem_cons_self _ _))]
    rw [pyWords_joinSpace (f :: fs)
      (fun x hx => h1 x (List.mem_cons_of_mem w hx))
      (fun x hx => h2 x (List.mem_cons_of_mem w hx))]

theorem pyWords_sound : ∀ l : Str, ∀ w ∈ pyWords l,
    w ≠ [] ∧ ∀ c ∈ w, isWS c = false ∧ c ∈ l
  | [], w, hw => absurd hw (by simp [pyWords, pyWordsF])
  | a :: l, w, hw => by
    rw [pyWords_cons] at hw
    by_cases ha : isWS a = true
    · rw [if_pos ha] at hw
      obtain ⟨hne, hc⟩ := pyWords_sound l w hw
      exact ⟨hne, fun c hcw => ⟨(hc c hcw).1,
        List.mem_cons_of_mem a (hc c hcw).2⟩⟩
    · rw [if_neg ha] at hw
      rcases List.mem_cons.mp hw with rfl | hw2
      · refine ⟨by simp, fun c hcw => ?_⟩
        rcases List.mem_cons.mp hcw with rfl | hcw2
        · exact ⟨by simpa using ha, List.mem_cons_self _ _⟩
        · have hp := List.mem_takeWhile_imp hcw2
          have hm := (List.takeWhile_sublist _).subset hcw2
          exact ⟨by simpa using hp, List.mem_cons_of_mem a hm⟩
      · obtain ⟨hne, hc⟩ := pyWords_sound (l.dropWhile (fun d => !isWS d)) w hw2
        exact ⟨hne, fun c hcw => ⟨(hc c hcw).1,
          List.mem_cons_of_mem a ((List.dropWhile_sublist _).subset (hc c hcw).2)⟩⟩
termination_by l => l.length
decreasing_by
  · simp only [List.length_cons]
    exact Nat.lt_succ_self _
  · simp only [List.length_cons]
    exact Nat.lt_succ_of_le ((List.dropWhile_sublist _).length_le)

theorem pyWords_all_ws : ∀ w : Str, (∀ c ∈ w, isWS c = true) → pyWords w = []
  | [], _ => rfl
  | c :: cs, h => by
    rw [pyWords_cons, if_pos (h c (List.mem_cons_self c cs))]
    exact pyWords_all_ws cs (fun a ha => h a (List.mem_cons_of_mem c ha))

theorem pyWords_dropWhile_ws : ∀ l : Str, pyWords (l.dropWhile isWS) = pyWords l
  | [] => rfl
  | c :: cs => by
    by_cases h : isWS c = true
    · rw [List.dropWhile_cons_of_pos h, pyWords_dropWhile_ws cs,
        pyWords_cons, if_pos h]
    · rw [List.dropWhile_cons_of_neg h]

theorem takeWhile_dropWhile_append_stop (p : Char → Bool) :
    ∀ l : Str, l.dropWhile p ≠ [] → ∀ t : Str,
      (l ++ t).takeWhile p = l.takeWhile p ∧
      (l ++ t).dropWhile p = l.dropWhile p ++ t
  | [], h, _ => absurd rfl h
  | a :: l, h, t => by
    by_cases ha : p a = true
    · rw [List.dropWhile_cons_of_pos ha] at h
      have ih := takeWhile_dropWhile_append_stop p l h t
      constructor
      · rw [List.cons_append, List.takeWhile_cons_of_pos ha, ih.1,
          List.takeWhile_cons_of_pos ha]
      · rw [List.cons_append, List.dropWhile_cons_of_pos ha, ih.2,
          List.dropWhile_cons_of_pos ha]
    · constructor
      · rw [List.cons_append, List.takeWhile_cons_of_neg ha,
          List.takeWhile_cons_of_neg ha]
      · rw [List.cons_append, List.dropWhile_cons_of_neg ha,
          List.dropWhile_cons_of_neg ha, List.cons_append]

theorem pyWords_append_ws : ∀ v w : Str, (∀ c ∈ w, isWS c = true) →
    pyWords (v ++ w) = pyWords v
  | [], w, hw => by rw [List.nil_append, pyWords_all_ws w hw]; rfl
  | a :: v, w, hw => by
    by_cases ha : isWS a = true
    · rw [List.cons_append, pyWords_cons, if_pos ha, pyWords_cons, if_pos ha]
      exact pyWords_append_ws v w hw
    · rw [List.cons_append, pyWords_cons, if_neg ha, pyWords_cons, if_neg ha]
      by_cases hdrop : v.dropWhile (fun d => !isWS d) = []
      · have hall : ∀ b ∈ v, (fun d => !isWS d) b = true :=
          List.dropWhile_eq_nil_iff.mp hdrop
        have h := takeWhile_append_all (fun d => !isWS d) v hall w
        rw [h.1, h.2, List.takeWhile_eq_self_iff.mpr hall, hdrop]
        have htw : w.takeWhile (fun d => !isWS d) = [] := by
          cases w with
          | nil => rfl
          | cons b bs =>
            exact List.takeWhile_cons_of_neg
              (by simp [hw b (List.mem_cons_self b bs)])
        have hdw : w.dropWhile (fun d => !isWS d) = w := by
          cases w with
          | nil => rfl
          | cons b bs =>
            exact List.dropWhile_cons_of_neg
              (by simp [hw b (List.mem_cons_self b bs)])
        rw [htw, hdw, List.append_nil, pyWords_all_ws w hw]
        rfl
      · have h := takeWhile_dropWhile_append_stop (fun d => !isWS d) v hdrop w
        rw [h.1, h.2]
        rw [pyWords_append_ws (v.dropWhile (fun d => !isWS d)) w hw]
termination_by v => v.length
decreasing_by
  · simp only [List.length_cons]
    exact Nat.lt_succ_self _
  · simp only [List.length_cons]
    exact Nat.lt_succ_of_le ((List.dropWhile_sublist _).length_le)

theorem pyWords_pyStrip (l : Str) : pyWords (pyStrip l) = pyWords l := by
  unfold pyStrip
  set v := l.dropWhile isWS with hv
  have hsplit : v.reverse.takeWhile isWS ++ v.reverse.dropWhile isWS = v.reverse :=
    List.takeWhile_append_dropWhile isWS v.reverse
  have hv2 : (v.reverse.dropWhile isWS).reverse ++
      (v.reverse.takeWhile isWS).reverse = v := by
    have h := congrArg List.reverse hsplit
    rw [List.reverse_append, List.reverse_reverse] at h
    exact h
  have hws : ∀ c ∈ (v.reverse.takeWhile isWS).reverse, isWS c = true := by
    intro c hc
    rw [List.mem_reverse] at hc
    exact List.mem_takeWhile_imp hc
  calc pyWords (v.reverse.dropWhile isWS).reverse
      = pyWords ((v.reverse.dropWhile isWS).reverse ++
          (v.reverse.takeWhile isWS).reverse) :=
        (pyWords_append_ws _ _ hws).symm
    _ = pyWords v := by rw [hv2]
    _ = pyWords l := pyWords_dropWhile_ws l

theorem stripPdf_append (s : Str) : stripPdf (s ++ pdfExt) = s := by
  unfold stripPdf
  rw [if_pos (List.isSuffixOf_iff_suffix.mpr (List.suffix_append s pdfExt))]
  have hlen : (s ++ pdfExt).length - 4 = s.length := by
    rw [List.length_append]
    rfl
  rw [hlen, List.take_left' rfl]

theorem mem_joinSpace : ∀ ws : List Str, ∀ c ∈ joinSpace ws,
    c = ' ' ∨ ∃ w ∈ ws, c ∈ w
  | [], c, hc => absurd hc (List.not_mem_nil c)
  | [w], c, hc => Or.inr ⟨w, List.mem_singleton.mpr rfl, hc⟩
  | w :: f :: fs, c, hc => by
    rcases List.mem_append.mp hc with hcw | hcr
    · exact Or.inr ⟨w, List.mem_cons_self _ _, hcw⟩
    · rcases List.mem_cons.mp hcr with rfl | hcj
      · exact Or.inl rfl
      · rcases mem_joinSpace (f :: fs) c hcj with h | ⟨x, hx, hcx⟩
        · exact Or.inl h
        · exact Or.inr ⟨x, List.mem_cons_of_mem w hx, hcx⟩

theorem pyStrip_subset (l : Str) (c : Char) (hc : c ∈ pyStrip l) : c ∈ l := by
  unfold pyStrip at hc
  rw [List.mem_reverse] at hc
  have h1 := (List.dropWhile_sublist isWS).subset hc
  rw [List.mem_reverse] at h1
  exact (List.dropWhile_sublist isWS).subset h1

/-- C8: `generate_formatted_filename` is total (it is a total function of
its input, defined for the empty string and strings with no alphanumeric
characters alike) and idempotent: applying it to its own output with the
fixed `".pdf"` extension stripped yields the same result as applying it
once. -/
theorem C8_toFilename_idempotent (t : Str) :
    generate_formatted_filename (stripPdf (generate_formatted_filename t)) =
      generate_formatted_filename t := by
  have hgff : ∀ u : Str, generate_formatted_filename u =
      joinSpace (pyWords (pyStrip (u.filter allowedChar))) ++ pdfExt :=
    fun u => rfl
  set ws := pyWords (pyStrip (t.filter allowedChar)) with hws
  have hsound := pyWords_sound (pyStrip (t.filter allowedChar))
  have h1 : ∀ w ∈ ws, w ≠ [] := fun w hw => (hsound w hw).1
  have h2 : ∀ w ∈ ws, ∀ c ∈ w, isWS c = false :=
    fun w hw c hc => ((hsound w hw).2 c hc).1
  have hmem : ∀ w ∈ ws, ∀ c ∈ w, c ∈ t.filter allowedChar :=
    fun w hw c hc => pyStrip_subset _ c ((hsound w hw).2 c hc).2
  rw [hgff t, stripPdf_append, hgff]
  have hfilter : (joinSpace ws).filter allowedChar = joinSpace ws := by
    rw [List.filter_eq_self]
    intro c hc
    rcases mem_joinSpace ws c hc with rfl | ⟨w, hw, hcw⟩
    · decide
    · exact (List.mem_filter.mp (hmem w hw c hcw)).2
  rw [hfilter, pyWords_pyStrip, pyWords_joinSpace ws h1 h2]

theorem phase1_length_le : ∀ (ws : List Str) (maxW : Nat) (acc : List Str),
    (phase1 ws maxW acc).length ≤ acc.length + ws.length
  | [], _, acc => by simp [phase1]
  | w :: ws, maxW, acc => by
    simp only [phase1]
    split
    · split
      · simp only [List.length_append, List.length_singleton, List.length_cons,
          List.length_nil]
        omega
      · have h := phase1_length_le ws maxW (acc ++ [cleanWord w])
        simp only [List.length_append, List.length_singleton,
          List.length_cons, List.length_nil] at h ⊢
        omega
    · have h := phase1_length_le ws maxW acc
      simp only [List.length_cons]
      omega

theorem phase1_le_max : ∀ (ws : List Str) (maxW : Nat) (acc : List Str),
    acc.length < maxW → (phase1 ws maxW acc).length ≤ maxW
  | [], _, acc, h => le_of_lt h
  | w :: ws, maxW, acc, h => by
    simp only [phase1]
    split
    · split
      · simp only [List.length_append, List.length_singleton]
        omega
      · rename_i hstop
        exact phase1_le_max ws maxW (acc ++ [cleanWord w])
          (by simp only [List.length_append, List.length_singleton]; omega)
    · exact phase1_le_max ws maxW acc h

theorem phase1_zero_le : ∀ (ws : List Str) (acc : List Str),
    (phase1 ws 0 acc).length ≤ acc.length + 1
  | [], acc => Nat.le_succ _
  | w :: ws, acc => by
    simp only [phase1]
    split
    · rw [if_pos (Nat.zero_le _)]
      simp [List.length_append]
    · exact phase1_zero_le ws acc

theorem phase2_le_four : ∀ (ws : List Str) (acc : List Str),
    acc.length < 4 → (phase2 ws acc).length ≤ 4
  | [], acc, h => le_of_lt h
  | w :: ws, acc, h => by
    simp only [phase2]
    split
    · split
      · simp only [List.length_append, List.length_singleton]
        omega
      · rename_i hstop
        exact phase2_le_four ws (acc ++ [cleanWord w])
          (by simp only [List.length_append, List.length_singleton]; omega)
    · exact phase2_le_four ws acc h

theorem phase2_covers : ∀ (ws : List Str) (acc : List Str),
    (phase2 ws acc).length < 4 →
    (∀ x ∈ acc, x ∈ phase2 ws acc) ∧
    (∀ w ∈ ws, cleanWord w ≠ [] → cleanWord w ∈ phase2 ws acc)
  | [], acc, _ => ⟨fun x hx => hx, fun w hw => absurd hw (List.not_mem_nil w)⟩
  | w :: ws, acc, h => by
    simp only [phase2] at h ⊢
    split
    · rename_i hcw
      split
      · rename_i hstop
        rw [if_pos hcw, if_pos hstop] at h
        simp only [List.length_append, List.length_singleton] at h
        omega
      · rename_i hgo
        rw [if_pos hcw, if_neg hgo] at h
        have ih := phase2_covers ws (acc ++ [cleanWord w]) h
        refine ⟨fun x hx => ih.1 x (List.mem_append_left _ hx), ?_⟩
        intro v hv hvne
        rcases List.mem_cons.mp hv with rfl | hv2
        · exact ih.1 (cleanWord v) (List.mem_append_right _ (List.mem_singleton.mpr rfl))
        · exact ih.2 v hv2 hvne
    · rename_i hcw
      rw [if_neg hcw] at h
      have ih := phase2_covers ws acc h
      refine ⟨ih.1, ?_⟩
      intro v hv hvne
      rcases List.mem_cons.mp hv with rfl | hv2
      · have : cleanWord v ∈ acc := by
          by_contra hna
          exact hcw ⟨hvne, hna⟩
        exact ih.1 (cleanWord v) this
      · exact ih.2 v hv2 hvne

theorem phase1_sound : ∀ (ws : List Str) (maxW : Nat) (acc : List Str),
    (∀ w ∈ ws, ∀ c ∈ w, isWS c = false) →
    (∀ x ∈ acc, x ≠ [] ∧ ∀ c ∈ x, isWS c = false) →
    ∀ x ∈ phase1 ws maxW acc, x ≠ [] ∧ ∀ c ∈ x, isWS c = false
  | [], _, acc, _, hacc => hacc
  | w :: ws, maxW, acc, hws, hacc => by
    have hw : ∀ c ∈ cleanWord w, isWS c = false := fun c hc =>
      hws w (List.mem_cons_self w ws) c (List.mem_filter.mp hc).1
    have hws2 : ∀ v ∈ ws, ∀ c ∈ v, isWS c = false :=
      fun v hv => hws v (List.mem_cons_of_mem w hv)
    simp only [phase1]
    split
    · rename_i hcw
      have hext : ∀ x ∈ acc ++ [cleanWord w], x ≠ [] ∧ ∀ c ∈ x, isWS c = false := by
        intro x hx
        rcases List.mem_append.mp hx with hxa | hxc
        · exact hacc x hxa
        · rw [List.mem_singleton.mp hxc]
          exact ⟨hcw.2, hw⟩
      split
      · exact hext
      · exact phase1_sound ws maxW (acc ++ [cleanWord w]) hws2 hext
    · exact phase1_sound ws maxW acc hws2 hacc

theorem phase2_sound : ∀ (ws : List Str) (acc : List Str),
    (∀ w ∈ ws, ∀ c ∈ w, isWS c = false) →
    (∀ x ∈ acc, x ≠ [] ∧ ∀ c ∈ x, isWS c = false) →
    ∀ x ∈ phase2 ws acc, x ≠ [] ∧ ∀ c ∈ x, isWS c = false
  | [], acc, _, hacc => hacc
  | w :: ws, acc, hws, hacc => by
    have hw : ∀ c ∈ cleanWord w, isWS c = false := fun c hc =>
      hws w (List.mem_cons_self w ws) c (List.mem_filter.mp hc).1
    have hws2 : ∀ v ∈ ws, ∀ c ∈ v, isWS c = false :=
      fun v hv => hws v (List.mem_cons_of_mem w hv)
    simp only [phase2]
    split
    · rename_i hcw
      have hext : ∀ x ∈ acc ++ [cleanWord w], x ≠ [] ∧ ∀ c ∈ x, isWS c = false := by
        intro x hx
        rcases List.mem_append.mp hx with hxa | hxc
        · exact hacc x hxa
        · rw [List.mem_singleton.mp hxc]
          exact ⟨hcw.1, hw⟩
      split
      · exact hext
      · exact phase2_sound ws (acc ++ [cleanWord w]) hws2 hext
    · exact phase2_sound ws acc hws2 hacc

theorem dedup_length_le_of_subset (L R : List Str)
    (h : ∀ x ∈ L, x ∈ R) : L.dedup.length ≤ R.length := by
  have h1 : L.dedup.length = L.toFinset.card := (List.card_toFinset L).symm
  have h2 : L.toFinset ⊆ R.toFinset := by
    intro x hx
    rw [List.mem_toFinset] at hx ⊢
    exact h x hx
  calc L.dedup.length = L.toFinset.card := h1
    _ ≤ R.toFinset.card := Finset.card_le_card h2
    _ ≤ R.length := R.toFinset_card_le

theorem tokenCount_joinSpace (kw : List Str) (h1 : ∀ x ∈ kw, x ≠ [])
    (h2 : ∀ x ∈ kw, ∀ c ∈ x, isWS c = false) :
    tokenCount (joinSpace kw) = kw.length := by
  unfold tokenCount
  rw [pyWords_joinSpace kw h1 h2]

/-- C7 counterexample: with `maxWords = 1` and title
`"alpha beta gamma delta"`, the shortened title has 4 tokens — the first
loop keeps one token and then, because fewer than 3 tokens survived, the
re-add loop tops the list up to 4, exceeding `maxWords`. -/
theorem C7_shorten_can_exceed_maxwords :
    ¬ (tokenCount (shorten_title_for_filename
        "alpha beta gamma delta".toList 1) ≤ 1) := by decide

/-- C7 amended: `shorten_title_for_filename` returns at most
`max maxWords 4` tokens (the re-add loop can return up to 4 tokens even
when `maxWords < 4`), and at least `min 3 D` tokens where `D` is the
number of *distinct, nonempty punctuation-stripped* raw tokens of the
title (raw tokens that clean to empty, or duplicate an already-kept
token, are never re-added; so the bound is in terms of `D`, not of the
raw token count). -/
theorem C7_amended_shorten_bounds (title : Str) (maxWords : Nat) :
    tokenCount (shorten_title_for_filename title maxWords) ≤ max maxWords 4 ∧
    min 3 (distinctCleanCount title) ≤
      tokenCount (shorten_title_for_filename title maxWords) := by
  simp only [shorten_title_for_filename]
  set ws := pyWords title with hws
  set kw := phase1 ws maxWords [] with hkw
  have hwsf : ∀ w ∈ ws, ∀ c ∈ w, isWS c = false :=
    fun w hw c hc => ((pyWords_sound title w hw).2 c hc).1
  have hkw_sound : ∀ x ∈ kw, x ≠ [] ∧ ∀ c ∈ x, isWS c = false :=
    phase1_sound ws maxWords [] hwsf
      (fun x hx => absurd hx (List.not_mem_nil x))
  have hDle : ∀ R : List Str,
      (∀ w ∈ ws, cleanWord w ≠ [] → cleanWord w ∈ R) →
      distinctCleanCount title ≤ R.length := by
    intro R hR
    unfold distinctCleanCount
    rw [← hws]
    apply dedup_length_le_of_subset
    intro x hx
    rw [List.mem_filter] at hx
    obtain ⟨hxm, hxne⟩ := hx
    rw [List.mem_map] at hxm
    obtain ⟨w, hwmem, rfl⟩ := hxm
    exact hR w hwmem (of_decide_eq_true hxne)
  by_cases hsel : kw.length < 3 ∧ kw.length < ws.length
  · rw [if_pos hsel]
    have hkw2_sound : ∀ x ∈ phase2 ws kw, x ≠ [] ∧ ∀ c ∈ x, isWS c = false :=
      phase2_sound ws kw hwsf hkw_sound
    rw [tokenCount_joinSpace _ (fun x hx => (hkw2_sound x hx).1)
      (fun x hx => (hkw2_sound x hx).2)]
    constructor
    · exact le_trans (phase2_le_four ws kw (by omega)) (le_max_right _ _)
    · by_cases h4 : (phase2 ws kw).length < 4
      · have hcov := phase2_covers ws kw h4
        exact le_trans (min_le_right _ _) (hDle _ hcov.2)
      · push_neg at h4
        exact le_trans (min_le_left _ _) (by omega)
  · rw [if_neg hsel]
    rw [tokenCount_joinSpace kw (fun x hx => (hkw_sound x hx).1)
      (fun x hx => (hkw_sound x hx).2)]
    constructor
    · cases maxWords with
      | zero =>
        have h1 := phase1_zero_le ws []
        simp only [List.length_nil] at h1
        exact le_trans h1 (by omega)
      | succ m =>
        have h1 := phase1_le_max ws (m + 1) [] (by simp)
        exact le_trans h1 (le_max_left _ _)
    · rcases not_and_or.mp hsel with h3 | hlen
      · push_neg at h3
        exact le_trans (min_le_left _ _) h3
      · push_neg at hlen
        have hD : distinctCleanCount title ≤ ws.length := by
          unfold distinctCleanCount
          rw [← hws]
          calc ((ws.map cleanWord).filter (fun w => w ≠ [])).dedup.length
              ≤ ((ws.map cleanWord).filter (fun w => w ≠ [])).length :=
                (List.dedup_sublist _).length_le
            _ ≤ (ws.map cleanWord).length := List.length_filter_le _ _
            _ = ws.length := List.length_map _ _
        exact le_trans (min_le_right _ _) (le_trans hD hlen)

end TaskTools
